import Mathlib

/-! Verification of the step-through Dijkstra state machine in
`src/dijkstra.composable.ts`: an incremental shortest-path search whose
`next()` advances one micro-step (frontier selection, edge dequeue, or one
relaxation) and whose history manager supports exact undo via `prev()`. -/

namespace Dijkstra

/-- Vertex identifiers (`type Id = string`). -/
abbrev Id := String

/-- Edge costs are finite JS numbers, modelled as integers (the program's
graphs carry integer weights; no claim depends on fractional costs, and
integer arithmetic is what the kernel can evaluate). -/
abbrev Cost := Int

/-- JS numbers as stored in the distance table: a finite value or
`Infinity`, modelled by `⊤` in `WithTop Int`. -/
abbrev DistVal := WithTop Int

instance : DecidableEq DistVal := fun a b => inferInstanceAs (Decidable (a = b))

/-- `interface Edge { from: Id; to: Id; cost: number }`; `from` is a Lean
keyword, hence the field names `fromV` and `toV`. -/
structure Edge where
  fromV : Id
  toV : Id
  cost : Cost
deriving DecidableEq

/-- `interface Graph`: the algorithm reads `graph.vertices` only through
`Object.keys(graph.vertices)` (the `Vertice` payload is never consumed), so
the vertex record is modelled by its ordered key list. -/
structure Graph where
  vertices : List Id
  edges : List Edge
deriving DecidableEq

/-- JS object lookup `m[k]`, `some` if the key is present (JS records have
unique keys; the first occurrence is authoritative). -/
def getVal {α : Type} : List (Id × α) → Id → Option α
  | [], _ => none
  | (k', v) :: rest, k => if k' = k then some v else getVal rest k

/-- JS object assignment `m[k] = v`: overwrite the key in place when
present, otherwise append it (records preserve key insertion order). -/
def setKey {α : Type} : List (Id × α) → Id → α → List (Id × α)
  | [], k, v => [(k, v)]
  | (k', v') :: rest, k, v =>
      if k' = k then (k, v) :: rest else (k', v') :: setKey rest k v

/-- The lookup `state.distances[id] ?? Infinity` used by `next()`. -/
def lookupD (m : List (Id × DistVal)) (k : Id) : DistVal :=
  (getVal m k).getD ⊤

/-- `interface DijkstraState`, field for field, keeping the source's
spelling `unvisted`. -/
structure DijkstraState where
  unvisted : List Id
  distances : List (Id × DistVal)
  previous : List (Id × Option Id)
  currentVertex : Option Id
  currentEdge : Option Edge
  edgesLeft : List Edge
  isDone : Bool
deriving DecidableEq

/-- `initDistances`: every vertex is set to `Infinity` in key order, then
the start vertex is set to `0` (adding the key when `start` is absent). -/
def initDistances (graph : Graph) (start : Id) : List (Id × DistVal) :=
  setKey (graph.vertices.foldl (fun m id => setKey m id ⊤) []) start ((0 : Int) : DistVal)

/-- `initDijkstra(graph, start)`. -/
def initDijkstra (graph : Graph) (start : Id) : DijkstraState :=
  { unvisted := graph.vertices
    distances := initDistances graph start
    previous := [(start, none)]
    currentVertex := none
    currentEdge := none
    edgesLeft := []
    isDone := false }

/-- Frontier-selection loop of `next()` (step 2): fold over `unvisted`
keeping the first id whose `distances[id] ?? Infinity` strictly improves on
the accumulator, starting from `('', Infinity)`.  When the branch is taken
the entry is present, so the stored `distances[id]!` read by the source
equals this `??`-lookup. -/
def selGo (dist : List (Id × DistVal)) : List Id → Id × DistVal → Id × DistVal
  | [], acc => acc
  | id :: rest, acc =>
      if lookupD dist id < acc.2 then selGo dist rest (id, lookupD dist id)
      else selGo dist rest acc

/-- The `connections` computed in step 2: reverse every edge whose `to` is
the chosen vertex, keep the rest, then keep only edges leaving the chosen
vertex whose far endpoint is still in the (pre-removal) `unvisted` copy. -/
def connections (graph : Graph) (minimal : Id) (unvisted : List Id) : List Edge :=
  (graph.edges.map fun edge =>
      if edge.toV = minimal then { fromV := minimal, toV := edge.fromV, cost := edge.cost }
      else edge).filter
    fun edge => decide (edge.fromV = minimal) && decide (edge.toV ∈ unvisted)

/-- One invocation of `next()`.  The refs `graph` and `end` are parameters;
the result pairs the updated snapshot with the returned boolean.  The guard
order of the five numbered steps of the source is preserved.  In step 5 the
source reads `distances[edge.from]!`; on a missing key the JS comparison
`undefined + cost < nextCost` is false (NaN), modelled by the `none`
branch taking the no-update path. -/
def next (graph : Graph) (endV : Id) (s : DijkstraState) : DijkstraState × Bool :=
  if endV ∈ s.unvisted then
    match s.currentVertex with
    | none =>
        ({ s with
            currentVertex := some (selGo s.distances s.unvisted ("", ⊤)).1
            edgesLeft := connections graph (selGo s.distances s.unvisted ("", ⊤)).1 s.unvisted
            unvisted := s.unvisted.filter fun u =>
              decide (u ≠ (selGo s.distances s.unvisted ("", ⊤)).1) }, false)
    | some _ =>
        match s.currentEdge with
        | none =>
            match s.edgesLeft with
            | [] => ({ s with currentVertex := none }, false)
            | target :: rest =>
                ({ s with currentEdge := some target, edgesLeft := rest }, false)
        | some edge =>
            match getVal s.distances edge.fromV with
            | some currentCost =>
                if currentCost + (edge.cost : DistVal) < lookupD s.distances edge.toV then
                  ({ s with
                      distances := setKey s.distances edge.toV
                        (currentCost + (edge.cost : DistVal))
                      previous := setKey s.previous edge.toV (some edge.fromV)
                      currentEdge := none }, false)
                else ({ s with currentEdge := none }, false)
            | none => ({ s with currentEdge := none }, false)
  else if s.isDone then (s, true)
  else ({ s with isDone := true, currentVertex := none }, true)

/-- Iterated `next()` calls starting from an arbitrary snapshot. -/
def runFrom (graph : Graph) (endV : Id) (s : DijkstraState) : Nat → DijkstraState
  | 0 => s
  | k + 1 => (next graph endV (runFrom graph endV s k)).1

/-- The snapshot after `k` calls to `next()` from the initial snapshot. -/
def runD (graph : Graph) (start endV : Id) (k : Nat) : DijkstraState :=
  runFrom graph endV (initDijkstra graph start) k

/-- Image of a snapshot under the deep clone used by `useRefHistory` (a
JSON round-trip): the only snapshot value that does not survive
`JSON.stringify` is `Infinity`, which serializes to `null`, so an archived
distance entry is either `none` (the null marker) or a finite value. -/
structure ClonedState where
  unvisted : List Id
  distances : List (Id × Option Int)
  previous : List (Id × Option Id)
  currentVertex : Option Id
  currentEdge : Option Edge
  edgesLeft : List Edge
  isDone : Bool
deriving DecidableEq

/-- JSON image of one distance value: `Infinity` becomes `null`. -/
def distToJson (d : DistVal) : Option Int :=
  WithTop.recTopCoe none (fun q => some q) d

/-- Reading a distance value back from an archived snapshot, with the
normalization performed by `prev()` folded in: a `null` marker becomes
`Infinity` again. -/
def distFromJson : Option Int → DistVal
  | none => ⊤
  | some q => (q : DistVal)

/-- Deep JSON clone of a snapshot, as archived by the history manager. -/
def jsonClone (s : DijkstraState) : ClonedState :=
  { unvisted := s.unvisted
    distances := s.distances.map fun p => (p.1, distToJson p.2)
    previous := s.previous
    currentVertex := s.currentVertex
    currentEdge := s.currentEdge
    edgesLeft := s.edgesLeft
    isDone := s.isDone }

/-- Restoring an archived snapshot, including the null-to-Infinity
normalization of the distance table that `prev()` performs after `undo()`. -/
def restoreSnapshot (c : ClonedState) : DijkstraState :=
  { unvisted := c.unvisted
    distances := c.distances.map fun p => (p.1, distFromJson p.2)
    previous := c.previous
    currentVertex := c.currentVertex
    currentEdge := c.currentEdge
    edgesLeft := c.edgesLeft
    isDone := c.isDone }

/-- Current snapshot plus the undo stack of archived snapshots, most recent
first (`useRefHistory`'s undo stack holds the pre-mutation records). -/
structure Session where
  state : DijkstraState
  history : List ClonedState
deriving DecidableEq

/-- One `next()` call as seen through `useRefHistory` (`deep: true`,
`flush: 'sync'`): every mutating call commits exactly one history record —
all mutations of one call are grouped by `batch` — holding the pre-call
snapshot; the post-termination call mutates nothing and commits nothing. -/
def nextSession (graph : Graph) (endV : Id) (ss : Session) : Session × Bool :=
  if (next graph endV ss.state).1 = ss.state then (ss, (next graph endV ss.state).2)
  else
    ({ state := (next graph endV ss.state).1
       history := jsonClone ss.state :: ss.history }, (next graph endV ss.state).2)

/-- The composable's `prev()`: `undo()` restores the most recent archived
snapshot (a no-op on empty history), then every distance entry left as a
`null` marker is normalized back to `Infinity`. -/
def prev (ss : Session) : Session :=
  match ss.history with
  | [] => ss
  | c :: rest => { state := restoreSnapshot c, history := rest }

/-- Session after `k` forward `next()` calls from the initial snapshot. -/
def sessRun (graph : Graph) (start endV : Id) : Nat → Session
  | 0 => ⟨initDijkstra graph start, []⟩
  | k + 1 => (nextSession graph endV (sessRun graph start endV k)).1

/-- Two-vertex graph with no edges: `end` is unreachable from `start`. -/
def exG1 : Graph := ⟨["A", "B"], []⟩

/-- The spec's example scenario: edges A→B(2), A→C(1), B→C(3), B→D(2),
C→D(8), C→E(3). -/
def exG2 : Graph :=
  ⟨["A", "B", "C", "D", "E"],
   [⟨"A", "B", 2⟩, ⟨"A", "C", 1⟩, ⟨"B", "C", 3⟩, ⟨"B", "D", 2⟩,
    ⟨"C", "D", 8⟩, ⟨"C", "E", 3⟩]⟩

/-- Path graph A→B→C; with `end = B` the termination check fires while B's
expansion edges are still queued. -/
def exG3 : Graph := ⟨["A", "B", "C"], [⟨"A", "B", 1⟩, ⟨"B", "C", 1⟩]⟩

/-- Graph whose only edge leaves the empty identifier, which is not a
vertex. -/
def exG9 : Graph := ⟨["B"], [⟨"", "B", 1⟩]⟩

/-- A SelectFrontier snapshot over `exG9` in which the sole unvisited
vertex B has infinite distance but the empty identifier has recorded
distance 0. -/
def exS9 : DijkstraState :=
  { unvisted := ["B"]
    distances := [("B", (⊤ : DistVal)), ("", ((0 : Int) : DistVal))]
    previous := []
    currentVertex := none
    currentEdge := none
    edgesLeft := []
    isDone := false }

/-! Basic lemmas about the record operations. -/

theorem getVal_setKey_self {α : Type} (m : List (Id × α)) (k : Id) (v : α) :
    getVal (setKey m k v) k = some v := by
  induction m with
  | nil => simp [setKey, getVal]
  | cons p rest ih =>
    obtain ⟨k', v'⟩ := p
    by_cases h : k' = k
    · simp [setKey, getVal, h]
    · simp [setKey, getVal, h, ih]

theorem getVal_setKey_ne {α : Type} (m : List (Id × α)) (k k' : Id) (v : α)
    (h : k' ≠ k) : getVal (setKey m k v) k' = getVal m k' := by
  induction m with
  | nil =>
    simp only [setKey, getVal]
    rw [if_neg fun hh => h hh.symm]
  | cons p rest ih =>
    obtain ⟨k'', v''⟩ := p
    by_cases hk : k'' = k
    · subst hk
      have hne : ¬ k'' = k' := fun hh => h hh.symm
      simp [setKey, getVal, hne]
    · by_cases hk' : k'' = k'
      · subst hk'
        simp [setKey, getVal, hk]
      · simp [setKey, getVal, hk, hk', ih]

theorem filter_ne_of_not_mem (l : List Id) (x : Id) (h : x ∉ l) :
    (l.filter fun u => decide (u ≠ x)) = l := by
  refine List.filter_eq_self.mpr ?_
  intro a ha
  have hax : a ≠ x := fun hax => h (hax ▸ ha)
  simpa using hax

/-! Branch equations for `next`, one per numbered step of the source. -/

theorem next_done_set (graph : Graph) (endV : Id) (s : DijkstraState)
    (h : endV ∉ s.unvisted) (hd : s.isDone = false) :
    next graph endV s = ({ s with isDone := true, currentVertex := none }, true) := by
  simp [next, h, hd]

theorem next_done_again (graph : Graph) (endV : Id) (s : DijkstraState)
    (h : endV ∉ s.unvisted) (hd : s.isDone = true) :
    next graph endV s = (s, true) := by
  simp [next, h, hd]

theorem next_select (graph : Graph) (endV : Id) (s : DijkstraState)
    (h : endV ∈ s.unvisted) (hcv : s.currentVertex = none) :
    next graph endV s =
      ({ s with
          currentVertex := some (selGo s.distances s.unvisted ("", ⊤)).1
          edgesLeft := connections graph (selGo s.distances s.unvisted ("", ⊤)).1 s.unvisted
          unvisted := s.unvisted.filter fun u =>
            decide (u ≠ (selGo s.distances s.unvisted ("", ⊤)).1) }, false) := by
  simp [next, h, hcv]

theorem next_complete (graph : Graph) (endV : Id) (s : DijkstraState) (w : Id)
    (h : endV ∈ s.unvisted) (hcv : s.currentVertex = some w)
    (hce : s.currentEdge = none) (hel : s.edgesLeft = []) :
    next graph endV s = ({ s with currentVertex := none }, false) := by
  simp [next, h, hcv, hce, hel]

theorem next_dequeue (graph : Graph) (endV : Id) (s : DijkstraState) (w : Id)
    (target : Edge) (rest : List Edge)
    (h : endV ∈ s.unvisted) (hcv : s.currentVertex = some w)
    (hce : s.currentEdge = none) (hel : s.edgesLeft = target :: rest) :
    next graph endV s =
      ({ s with currentEdge := some target, edgesLeft := rest }, false) := by
  simp [next, h, hcv, hce, hel]

theorem next_relax_update (graph : Graph) (endV : Id) (s : DijkstraState) (w : Id)
    (edge : Edge) (c : DistVal)
    (h : endV ∈ s.unvisted) (hcv : s.currentVertex = some w)
    (hce : s.currentEdge = some edge)
    (hgv : getVal s.distances edge.fromV = some c)
    (hlt : c + (edge.cost : DistVal) < lookupD s.distances edge.toV) :
    next graph endV s =
      ({ s with
          distances := setKey s.distances edge.toV (c + (edge.cost : DistVal))
          previous := setKey s.previous edge.toV (some edge.fromV)
          currentEdge := none }, false) := by
  simp [next, h, hcv, hce, hgv, hlt]

theorem next_relax_skip (graph : Graph) (endV : Id) (s : DijkstraState) (w : Id)
    (edge : Edge) (c : DistVal)
    (h : endV ∈ s.unvisted) (hcv : s.currentVertex = some w)
    (hce : s.currentEdge = some edge)
    (hgv : getVal s.distances edge.fromV = some c)
    (hlt : ¬ c + (edge.cost : DistVal) < lookupD s.distances edge.toV) :
    next graph endV s = ({ s with currentEdge := none }, false) := by
  simp [next, h, hcv, hce, hgv, hlt]

theorem next_relax_missing (graph : Graph) (endV : Id) (s : DijkstraState) (w : Id)
    (edge : Edge)
    (h : endV ∈ s.unvisted) (hcv : s.currentVertex = some w)
    (hce : s.currentEdge = some edge)
    (hgv : getVal s.distances edge.fromV = none) :
    next graph endV s = ({ s with currentEdge := none }, false) := by
  simp [next, h, hcv, hce, hgv]

/-! Distances never worsen: one `next()` call can only lower a distance. -/

theorem lookupD_mono_step (graph : Graph) (endV : Id) (s : DijkstraState) (v : Id) :
    lookupD (next graph endV s).1.distances v ≤ lookupD s.distances v := by
  by_cases h : endV ∈ s.unvisted
  · cases hcv : s.currentVertex with
    | none =>
      rw [next_select graph endV s h hcv]
    | some w =>
      cases hce : s.currentEdge with
      | none =>
        cases hel : s.edgesLeft with
        | nil => rw [next_complete graph endV s w h hcv hce hel]
        | cons target rest => rw [next_dequeue graph endV s w target rest h hcv hce hel]
      | some edge =>
        cases hgv : getVal s.distances edge.fromV with
        | none => rw [next_relax_missing graph endV s w edge h hcv hce hgv]
        | some c =>
          by_cases hlt : c + (edge.cost : DistVal) < lookupD s.distances edge.toV
          · rw [next_relax_update graph endV s w edge c h hcv hce hgv hlt]
            by_cases hv : v = edge.toV
            · subst hv
              show (getVal (setKey s.distances edge.toV (c + (edge.cost : DistVal)))
                  edge.toV).getD ⊤ ≤ _
              rw [getVal_setKey_self]
              exact le_of_lt hlt
            · show (getVal (setKey s.distances edge.toV (c + (edge.cost : DistVal))) v).getD ⊤ ≤ _
              rw [getVal_setKey_ne _ _ _ _ hv]
              exact le_rfl
          · rw [next_relax_skip graph endV s w edge c h hcv hce hgv hlt]
  · cases hd : s.isDone with
    | false => rw [next_done_set graph endV s h hd]
    | true => rw [next_done_again graph endV s h hd]

/-- C5: for every graph, start/end pair, vertex `v` and step index `k`, the
distance recorded for `v` after the `(k+1)`-st `next()` call is at most the
distance recorded before it — distances are monotonically non-increasing
along the whole run; only the relax step touches them, and only downward. -/
theorem c5_distances_monotone (graph : Graph) (start endV v : Id) (k : Nat) :
    lookupD (runD graph start endV (k + 1)).distances v ≤
      lookupD (runD graph start endV k).distances v :=
  lookupD_mono_step graph endV (runD graph start endV k) v

/-- C8: from any terminated snapshot (`isDone` set and `end` no longer
unvisited) every further `next()` call leaves the whole snapshot unchanged
and keeps returning the done signal `true`, never an error. -/
theorem c8_next_after_done_noop (graph : Graph) (endV : Id) (s : DijkstraState)
    (hd : s.isDone = true) (hu : endV ∉ s.unvisted) (k : Nat) :
    runFrom graph endV s k = s ∧ (next graph endV (runFrom graph endV s k)).2 = true := by
  have hstep : next graph endV s = (s, true) := next_done_again graph endV s hu hd
  have hrun : ∀ n, runFrom graph endV s n = s := by
    intro n
    induction n with
    | zero => rfl
    | succ n ih =>
      show (next graph endV (runFrom graph endV s n)).1 = s
      rw [ih, hstep]
  exact ⟨hrun k, by rw [hrun k, hstep]⟩

/-- Terminated snapshot used to witness C8. -/
def exS8 : DijkstraState := ⟨["C"], [], [], none, none, [], true⟩

theorem c8_next_after_done_noop_witness :
    exS8.isDone = true ∧ ("B" ∉ exS8.unvisted) ∧
    runFrom exG1 "B" exS8 5 = exS8 ∧
    (next exG1 "B" (runFrom exG1 "B" exS8 5)).2 = true := by
  refine ⟨rfl, by decide, ?_, ?_⟩
  · exact (c8_next_after_done_noop exG1 "B" exS8 rfl (by decide) 5).1
  · exact (c8_next_after_done_noop exG1 "B" exS8 rfl (by decide) 5).2

/-- C10: when `next()` executes the relax branch (`currentEdge` set, with a
current vertex and `end` still unvisited), the only snapshot components it
may change are `distances[currentEdge.to]`, `previous[currentEdge.to]` and
`currentEdge` itself (always cleared); `unvisted`, `edgesLeft`,
`currentVertex`, `isDone` and every other entry of `distances` and
`previous` are untouched, whether or not the relaxation improves the
distance.  The graph, start and end refs are parameters that `next` never
writes. -/
theorem c10_relax_frame (graph : Graph) (endV : Id) (s : DijkstraState) (w : Id) (edge : Edge)
    (h : endV ∈ s.unvisted) (hcv : s.currentVertex = some w)
    (hce : s.currentEdge = some edge) :
    (next graph endV s).1.unvisted = s.unvisted ∧
    (next graph endV s).1.edgesLeft = s.edgesLeft ∧
    (next graph endV s).1.currentVertex = s.currentVertex ∧
    (next graph endV s).1.isDone = s.isDone ∧
    (next graph endV s).1.currentEdge = none ∧
    (∀ u : Id, u ≠ edge.toV →
      getVal (next graph endV s).1.distances u = getVal s.distances u ∧
      getVal (next graph endV s).1.previous u = getVal s.previous u) ∧
    (next graph endV s).2 = false := by
  cases hgv : getVal s.distances edge.fromV with
  | none =>
    rw [next_relax_missing graph endV s w edge h hcv hce hgv]
    exact ⟨rfl, rfl, rfl, rfl, rfl, fun u hu => ⟨rfl, rfl⟩, rfl⟩
  | some c =>
    by_cases hlt : c + (edge.cost : DistVal) < lookupD s.distances edge.toV
    · rw [next_relax_update graph endV s w edge c h hcv hce hgv hlt]
      refine ⟨rfl, rfl, rfl, rfl, rfl, fun u hu => ⟨?_, ?_⟩, rfl⟩
      · exact getVal_setKey_ne _ _ _ _ hu
      · exact getVal_setKey_ne _ _ _ _ hu
    · rw [next_relax_skip graph endV s w edge c h hcv hce hgv hlt]
      exact ⟨rfl, rfl, rfl, rfl, rfl, fun u hu => ⟨rfl, rfl⟩, rfl⟩

/-- Mid-relaxation snapshot used to witness C10. -/
def exS10 : DijkstraState :=
  ⟨["B", "E"], [("A", ((0 : Int) : DistVal))], [("A", none)],
   some "A", some ⟨"A", "B", 2⟩, [], false⟩

theorem c10_relax_frame_witness :
    ("E" ∈ exS10.unvisted) ∧ exS10.currentVertex = some "A" ∧
    exS10.currentEdge = some ⟨"A", "B", 2⟩ ∧
    (next exG1 "E" exS10).1.unvisted = exS10.unvisted ∧
    (next exG1 "E" exS10).1.currentEdge = none ∧
    getVal (next exG1 "E" exS10).1.distances "Z" = getVal exS10.distances "Z" := by
  have hmain := c10_relax_frame exG1 "E" exS10 "A" ⟨"A", "B", 2⟩ (by decide) rfl rfl
  exact ⟨by decide, rfl, rfl, hmain.1, hmain.2.2.2.2.1,
    (hmain.2.2.2.2.2.1 "Z" (by decide)).1⟩

/-! Characterization of the frontier-selection fold: it either keeps the
accumulator (no strict improvement anywhere) or returns the first list
element attaining the minimum distance below the accumulator. -/

theorem selGo_spec (dist : List (Id × DistVal)) (l : List Id) :
    ∀ (m : Id) (c : DistVal),
      (selGo dist l (m, c) = (m, c) ∧ ∀ v ∈ l, ¬ lookupD dist v < c) ∨
      (∃ pre w post, l = pre ++ w :: post ∧
        selGo dist l (m, c) = (w, lookupD dist w) ∧ lookupD dist w < c ∧
        (∀ v ∈ pre, lookupD dist w < lookupD dist v) ∧
        (∀ v ∈ post, ¬ lookupD dist v < lookupD dist w)) := by
  induction l with
  | nil =>
    intro m c
    left
    exact ⟨rfl, by simp⟩
  | cons x xs ih =>
    intro m c
    by_cases h : lookupD dist x < c
    · have hstep : selGo dist (x :: xs) (m, c) = selGo dist xs (x, lookupD dist x) := by
        simp [selGo, h]
      rcases ih x (lookupD dist x) with ⟨h1, h2⟩ | ⟨pre, w, post, hl, hres, hwc, hpre, hpost⟩
      · right
        exact ⟨[], x, xs, by simp, by rw [hstep, h1], h, by simp, h2⟩
      · right
        refine ⟨x :: pre, w, post, by simp [hl], by rw [hstep, hres],
          lt_trans hwc h, ?_, hpost⟩
        intro v hv
        rcases List.mem_cons.mp hv with rfl | hv'
        · exact hwc
        · exact hpre v hv'
    · have hstep : selGo dist (x :: xs) (m, c) = selGo dist xs (m, c) := by
        simp [selGo, h]
      rcases ih m c with ⟨h1, h2⟩ | ⟨pre, w, post, hl, hres, hwc, hpre, hpost⟩
      · left
        refine ⟨by rw [hstep, h1], ?_⟩
        intro v hv
        rcases List.mem_cons.mp hv with rfl | hv'
        · exact h
        · exact h2 v hv'
      · right
        refine ⟨x :: pre, w, post, by simp [hl], by rw [hstep, hres], hwc, ?_, hpost⟩
        intro v hv
        rcases List.mem_cons.mp hv with rfl | hv'
        · exact lt_of_lt_of_le hwc (not_lt.mp h)
        · exact hpre v hv'

/-- The selection fold returns the accumulator untouched when every listed
vertex has infinite looked-up distance. -/
theorem selGo_all_top (dist : List (Id × DistVal)) (l : List Id)
    (htop : ∀ v ∈ l, lookupD dist v = ⊤) :
    selGo dist l ("", ⊤) = ("", ⊤) := by
  rcases selGo_spec dist l "" ⊤ with ⟨h1, _⟩ | ⟨pre, w, post, hl, _, hwc, _, _⟩
  · exact h1
  · exfalso
    have hw : w ∈ l := by
      rw [hl]
      exact List.mem_append.mpr (Or.inr (List.mem_cons_self w post))
    rw [htop w hw] at hwc
    exact lt_irrefl ⊤ hwc

/-- C4 counterexample: at the reachable SelectFrontier snapshot after two
`next()` calls on the edgeless two-vertex graph (end unreachable and every
unvisited vertex at infinite distance), `next()` stores the fold's initial
accumulator `''` into `currentVertex` even though `''` is not an unvisited
vertex, so the claim's "chooses the unvisited vertex with minimum current
distance" fails. -/
theorem c4_select_frontier_counterexample :
    (runD exG1 "A" "B" 2).currentVertex = none ∧
    "B" ∈ (runD exG1 "A" "B" 2).unvisted ∧
    (next exG1 "B" (runD exG1 "A" "B" 2)).1.currentVertex = some "" ∧
    "" ∉ (runD exG1 "A" "B" 2).unvisted := by
  decide

/-- C4 (amended): when `next()` runs in the SelectFrontier phase and at
least one unvisited vertex has a finite recorded distance, it chooses the
unvisited vertex with minimum `distances[·] ?? Infinity`, ties broken in
favor of the first such vertex in the `unvisted` sequence (every earlier
vertex is strictly farther); it sets `currentVertex` to that vertex, sets
`edgesLeft` to the normalized and filtered edge list `connections`, removes
the chosen vertex from `unvisted`, and returns `false`. -/
theorem c4_select_frontier_amended (graph : Graph) (endV : Id) (s : DijkstraState)
    (hcv : s.currentVertex = none) (hend : endV ∈ s.unvisted)
    (hfin : ∃ v ∈ s.unvisted, lookupD s.distances v < ⊤) :
    ∃ chosen pre post,
      (next graph endV s).1 =
        { s with
            currentVertex := some chosen
            edgesLeft := connections graph chosen s.unvisted
            unvisted := s.unvisted.filter fun u => decide (u ≠ chosen) } ∧
      (next graph endV s).2 = false ∧
      s.unvisted = pre ++ chosen :: post ∧
      (∀ v ∈ pre, lookupD s.distances chosen < lookupD s.distances v) ∧
      (∀ v ∈ s.unvisted, lookupD s.distances chosen ≤ lookupD s.distances v) := by
  rcases selGo_spec s.distances s.unvisted "" ⊤ with ⟨_, h2⟩ |
    ⟨pre, w, post, hl, hres, _, hpre, hpost⟩
  · exfalso
    rcases hfin with ⟨v, hv, hvlt⟩
    exact h2 v hv hvlt
  · refine ⟨w, pre, post, ?_, ?_, hl, hpre, ?_⟩
    · rw [next_select graph endV s hend hcv, hres]
    · rw [next_select graph endV s hend hcv]
    · intro v hv
      rw [hl] at hv
      rcases List.mem_append.mp hv with hvpre | hvtail
      · exact le_of_lt (hpre v hvpre)
      · rcases List.mem_cons.mp hvtail with rfl | hvpost
        · exact le_rfl
        · exact not_lt.mp (hpost v hvpost)

theorem c4_select_frontier_witness :
    ∃ chosen pre post,
      (next exG1 "B" (initDijkstra exG1 "A")).1 =
        { initDijkstra exG1 "A" with
            currentVertex := some chosen
            edgesLeft := connections exG1 chosen (initDijkstra exG1 "A").unvisted
            unvisted := (initDijkstra exG1 "A").unvisted.filter fun u =>
              decide (u ≠ chosen) } ∧
      (next exG1 "B" (initDijkstra exG1 "A")).2 = false ∧
      (initDijkstra exG1 "A").unvisted = pre ++ chosen :: post ∧
      (∀ v ∈ pre, lookupD (initDijkstra exG1 "A").distances chosen <
        lookupD (initDijkstra exG1 "A").distances v) ∧
      (∀ v ∈ (initDijkstra exG1 "A").unvisted,
        lookupD (initDijkstra exG1 "A").distances chosen ≤
          lookupD (initDijkstra exG1 "A").distances v) :=
  c4_select_frontier_amended exG1 "B" (initDijkstra exG1 "A") rfl (by decide)
    ⟨"A", by decide, by decide⟩

/-! Phase invariant (claim C3).  The termination check clears
`currentVertex` but not `edgesLeft`, so the source only maintains the
weaker invariant below. -/

/-- Inductive phase invariant of reachable snapshots: a current edge forces
a current vertex; leftover expansion edges force a current vertex unless
`end` has already been finalized; and once `end` is finalized no current
edge exists. -/
def InvC3 (endV : Id) (s : DijkstraState) : Prop :=
  (s.currentEdge ≠ none → s.currentVertex ≠ none) ∧
  (s.edgesLeft ≠ [] → (s.currentVertex ≠ none ∨ endV ∉ s.unvisted)) ∧
  (endV ∉ s.unvisted → s.currentEdge = none)

theorem invC3_step (graph : Graph) (endV : Id) (s : DijkstraState)
    (hi : InvC3 endV s) : InvC3 endV (next graph endV s).1 := by
  obtain ⟨h1, h2, h3⟩ := hi
  by_cases h : endV ∈ s.unvisted
  · cases hcv : s.currentVertex with
    | none =>
      have hce : s.currentEdge = none := by
        by_contra hne
        exact (h1 hne) hcv
      rw [next_select graph endV s h hcv]
      refine ⟨fun _ => by simp, fun _ => Or.inl (by simp), fun _ => hce⟩
    | some w =>
      cases hce : s.currentEdge with
      | none =>
        cases hel : s.edgesLeft with
        | nil =>
          rw [next_complete graph endV s w h hcv hce hel]
          exact ⟨fun hne => absurd hce hne, fun hne => absurd hel hne, fun _ => hce⟩
        | cons t rest =>
          rw [next_dequeue graph endV s w t rest h hcv hce hel]
          refine ⟨fun _ => by simp [hcv], fun _ => Or.inl (by simp [hcv]),
            fun hout => absurd h hout⟩
      | some edge =>
        cases hgv : getVal s.distances edge.fromV with
        | none =>
          rw [next_relax_missing graph endV s w edge h hcv hce hgv]
          exact ⟨fun hne => absurd rfl hne, fun _ => Or.inl (by simp [hcv]), fun _ => rfl⟩
        | some c =>
          by_cases hlt : c + (edge.cost : DistVal) < lookupD s.distances edge.toV
          · rw [next_relax_update graph endV s w edge c h hcv hce hgv hlt]
            exact ⟨fun hne => absurd rfl hne, fun _ => Or.inl (by simp [hcv]), fun _ => rfl⟩
          · rw [next_relax_skip graph endV s w edge c h hcv hce hgv hlt]
            exact ⟨fun hne => absurd rfl hne, fun _ => Or.inl (by simp [hcv]), fun _ => rfl⟩
  · cases hd : s.isDone with
    | true =>
      rw [next_done_again graph endV s h hd]
      exact ⟨h1, h2, h3⟩
    | false =>
      have hce : s.currentEdge = none := h3 h
      rw [next_done_set graph endV s h hd]
      exact ⟨fun hne => absurd hce hne, fun _ => Or.inr h, fun _ => hce⟩

theorem invC3_run (graph : Graph) (start endV : Id) (k : Nat) :
    InvC3 endV (runD graph start endV k) := by
  induction k with
  | zero =>
    exact ⟨fun hne => absurd rfl hne, fun hne => absurd rfl hne, fun _ => rfl⟩
  | succ k ih => exact invC3_step graph endV _ ih

/-- C3 counterexample: on the path graph A→B→C with start A and end B, the
sixth `next()` call fires the termination check while B's expansion edge
B→C is still queued, leaving a reachable snapshot whose `edgesLeft` is
non-empty although `currentVertex` is none — refuting the claim as
stated. -/
theorem c3_phase_invariant_counterexample :
    (runD exG3 "A" "B" 6).edgesLeft ≠ [] ∧
    (runD exG3 "A" "B" 6).currentVertex = none := by
  decide

/-- C3 (amended): in every snapshot reachable from the initial one,
`currentEdge` is non-none only while `currentVertex` is non-none, and
`edgesLeft` is non-empty only while `currentVertex` is non-none or the
termination check has fired (`end` no longer unvisited) — the termination
transition clears `currentVertex` without clearing `edgesLeft`. -/
theorem c3_phase_invariant_amended (graph : Graph) (start endV : Id) (k : Nat) :
    ((runD graph start endV k).currentEdge ≠ none →
      (runD graph start endV k).currentVertex ≠ none) ∧
    ((runD graph start endV k).edgesLeft ≠ [] →
      ((runD graph start endV k).currentVertex ≠ none ∨
        endV ∉ (runD graph start endV k).unvisted)) :=
  ⟨(invC3_run graph start endV k).1, (invC3_run graph start endV k).2.1⟩

theorem c3_phase_invariant_witness :
    (runD exG3 "A" "B" 2).currentVertex ≠ none ∧
    ((runD exG3 "A" "B" 1).currentVertex ≠ none ∨
      "B" ∉ (runD exG3 "A" "B" 1).unvisted) :=
  ⟨(c3_phase_invariant_amended exG3 "A" "B" 2).1 (by decide),
   (c3_phase_invariant_amended exG3 "A" "B" 1).2 (by decide)⟩

/-! Start-vertex entries (claim C6). -/

theorem initDistances_lookup_ne (graph : Graph) (start v : Id) (hv : v ≠ start) :
    lookupD (initDistances graph start) v = ⊤ := by
  have hbase : ∀ (l : List Id) (m0 : List (Id × DistVal)),
      (∀ u x, getVal m0 u = some x → x = ⊤) →
      ∀ u x, getVal (l.foldl (fun m id => setKey m id ⊤) m0) u = some x → x = ⊤ := by
    intro l
    induction l with
    | nil => intro m0 hm0; exact hm0
    | cons a t ih =>
      intro m0 hm0
      apply ih
      intro u x hx
      by_cases hau : u = a
      · subst hau
        rw [getVal_setKey_self] at hx
        exact (Option.some.inj hx).symm
      · rw [getVal_setKey_ne _ _ _ _ hau] at hx
        exact hm0 u x hx
  unfold lookupD initDistances
  rw [getVal_setKey_ne _ _ _ _ hv]
  cases hgv : getVal (graph.vertices.foldl (fun m id => setKey m id ⊤)
      ([] : List (Id × DistVal))) v with
  | none => rfl
  | some x =>
    have hx := hbase graph.vertices [] (fun u x hux => by simp [getVal] at hux) v x hgv
    rw [hx]
    rfl

/-- On the initial snapshot the frontier fold picks the start vertex: it is
the only vertex below `Infinity`. -/
theorem selGo_init_start (graph : Graph) (start : Id) (hstart : start ∈ graph.vertices) :
    (selGo (initDistances graph start) graph.vertices ("", ⊤)).1 = start := by
  rcases selGo_spec (initDistances graph start) graph.vertices "" ⊤ with ⟨_, h2⟩ |
    ⟨pre, w, post, hl, hres, hwc, hpre, hpost⟩
  · exfalso
    have h0 : lookupD (initDistances graph start) start = ((0 : Int) : DistVal) := by
      unfold lookupD initDistances
      rw [getVal_setKey_self]
      rfl
    refine h2 start hstart ?_
    rw [h0]
    exact WithTop.coe_lt_top (0 : Int)
  · rw [hres]
    by_contra hws
    have hwtop : lookupD (initDistances graph start) w = ⊤ :=
      initDistances_lookup_ne graph start w hws
    rw [hwtop] at hwc
    exact lt_irrefl ⊤ hwc

theorem connections_toV_mem (graph : Graph) (m : Id) (unv : List Id) :
    ∀ e ∈ connections graph m unv, e.toV ∈ unv := by
  intro e he
  unfold connections at he
  rw [List.mem_filter] at he
  have hc := he.2
  simp only [Bool.and_eq_true, decide_eq_true_eq] at hc
  exact hc.2

theorem connections_toV_ne (graph : Graph) (m : Id) (unv : List Id)
    (hns : ∀ e ∈ graph.edges, e.fromV ≠ e.toV) :
    ∀ e ∈ connections graph m unv, e.toV ≠ m := by
  intro e he
  unfold connections at he
  rw [List.mem_filter] at he
  obtain ⟨hmem, _⟩ := he
  rw [List.mem_map] at hmem
  obtain ⟨e0, he0, heq⟩ := hmem
  by_cases ht : e0.toV = m
  · rw [if_pos ht] at heq
    intro hc
    rw [← heq] at hc
    exact hns e0 he0 (by rw [ht]; exact hc)
  · rw [if_neg ht] at heq
    subst heq
    exact ht

theorem not_mem_filter_ne_self (l : List Id) (x : Id) :
    x ∉ l.filter fun u => decide (u ≠ x) := by
  intro hx
  have hc := (List.mem_filter.mp hx).2
  simp at hc

/-- Inductive invariant for claim C6: the start vertex keeps distance `0`
and predecessor `null`; no queued or current edge targets the start vertex;
and while the start vertex is still unvisited nothing has happened yet. -/
def InvC6 (graph : Graph) (start : Id) (s : DijkstraState) : Prop :=
  getVal s.distances start = some ((0 : Int) : DistVal) ∧
  getVal s.previous start = some none ∧
  (∀ e ∈ s.edgesLeft, e.toV ≠ start) ∧
  (∀ e : Edge, s.currentEdge = some e → e.toV ≠ start) ∧
  (start ∈ s.unvisted →
    s = initDijkstra graph start ∨ s = { initDijkstra graph start with isDone := true })

theorem invC6_init (graph : Graph) (start : Id) :
    InvC6 graph start (initDijkstra graph start) := by
  refine ⟨?_, ?_, ?_, ?_, ?_⟩
  · show getVal (initDistances graph start) start = _
    unfold initDistances
    exact getVal_setKey_self _ _ _
  · show getVal [(start, none)] start = some none
    simp [getVal]
  · intro e he
    exact absurd he (List.not_mem_nil e)
  · intro e he
    exact Option.noConfusion he
  · intro _
    left
    rfl

theorem invC6_step (graph : Graph) (start endV : Id) (s : DijkstraState)
    (hns : ∀ e ∈ graph.edges, e.fromV ≠ e.toV) (hstart : start ∈ graph.vertices)
    (hi : InvC6 graph start s) : InvC6 graph start (next graph endV s).1 := by
  obtain ⟨hd0, hp0, hel0, hce0, hinit0⟩ := hi
  by_cases h : endV ∈ s.unvisted
  · cases hcv : s.currentVertex with
    | none =>
      rw [next_select graph endV s h hcv]
      refine ⟨hd0, hp0, ?_, ?_, ?_⟩
      · intro e he
        by_cases hsu : start ∈ s.unvisted
        · have hmin : (selGo s.distances s.unvisted ("", ⊤)).1 = start := by
            rcases hinit0 hsu with hs | hs <;>
              (rw [hs]; exact selGo_init_start graph start hstart)
          have hne := connections_toV_ne graph _ s.unvisted hns e he
          rw [hmin] at hne
          exact hne
        · have hmem := connections_toV_mem graph _ s.unvisted e he
          intro hc
          rw [hc] at hmem
          exact hsu hmem
      · intro e he
        exact hce0 e he
      · intro hsu'
        exfalso
        have hsu : start ∈ s.unvisted := (List.mem_filter.mp hsu').1
        have hne : ¬ start = (selGo s.distances s.unvisted ("", ⊤)).1 := by
          have hc := (List.mem_filter.mp hsu').2
          simpa using hc
        have hmin : (selGo s.distances s.unvisted ("", ⊤)).1 = start := by
          rcases hinit0 hsu with hs | hs <;>
            (rw [hs]; exact selGo_init_start graph start hstart)
        exact hne hmin.symm
    | some w =>
      cases hce : s.currentEdge with
      | none =>
        cases hel : s.edgesLeft with
        | nil =>
          rw [next_complete graph endV s w h hcv hce hel]
          refine ⟨hd0, hp0, hel0, fun e he => hce0 e he, ?_⟩
          intro hsu
          exfalso
          rcases hinit0 hsu with hs | hs <;> (rw [hs] at hcv; simp [initDijkstra] at hcv)
        | cons t rest =>
          rw [next_dequeue graph endV s w t rest h hcv hce hel]
          refine ⟨hd0, hp0, ?_, ?_, ?_⟩
          · intro e he
            exact hel0 e (by rw [hel]; exact List.mem_cons_of_mem t he)
          · intro e he
            have ht : t = e := Option.some.inj he
            rw [← ht]
            exact hel0 t (by rw [hel]; exact List.mem_cons_self t rest)
          · intro hsu
            exfalso
            rcases hinit0 hsu with hs | hs <;> (rw [hs] at hcv; simp [initDijkstra] at hcv)
      | some edge =>
        have hto : edge.toV ≠ start := hce0 edge hce
        have hsne : start ≠ edge.toV := fun hh => hto hh.symm
        cases hgv : getVal s.distances edge.fromV with
        | none =>
          rw [next_relax_missing graph endV s w edge h hcv hce hgv]
          refine ⟨hd0, hp0, hel0, fun e he => Option.noConfusion he, ?_⟩
          intro hsu
          exfalso
          rcases hinit0 hsu with hs | hs <;> (rw [hs] at hcv; simp [initDijkstra] at hcv)
        | some c =>
          by_cases hlt : c + (edge.cost : DistVal) < lookupD s.distances edge.toV
          · rw [next_relax_update graph endV s w edge c h hcv hce hgv hlt]
            refine ⟨?_, ?_, hel0, fun e he => Option.noConfusion he, ?_⟩
            · show getVal (setKey s.distances edge.toV _) start = _
              rw [getVal_setKey_ne _ _ _ _ hsne]
              exact hd0
            · show getVal (setKey s.previous edge.toV _) start = _
              rw [getVal_setKey_ne _ _ _ _ hsne]
              exact hp0
            · intro hsu
              exfalso
              rcases hinit0 hsu with hs | hs <;> (rw [hs] at hcv; simp [initDijkstra] at hcv)
          · rw [next_relax_skip graph endV s w edge c h hcv hce hgv hlt]
            refine ⟨hd0, hp0, hel0, fun e he => Option.noConfusion he, ?_⟩
            intro hsu
            exfalso
            rcases hinit0 hsu with hs | hs <;> (rw [hs] at hcv; simp [initDijkstra] at hcv)
  · cases hd : s.isDone with
    | true =>
      rw [next_done_again graph endV s h hd]
      exact ⟨hd0, hp0, hel0, hce0, hinit0⟩
    | false =>
      rw [next_done_set graph endV s h hd]
      refine ⟨hd0, hp0, hel0, fun e he => hce0 e he, ?_⟩
      intro hsu
      rcases hinit0 hsu with hs | hs
      · right
        rw [hs]
        rfl
      · right
        rw [hs]
        rfl

/-- C6: for every graph without self-loops whose vertex set contains the
start vertex, every reachable snapshot keeps `distances[start] = 0` and
`previous[start] = null` — no transition ever overwrites the start
vertex's entries (edges back into the start vertex are filtered out
because the start vertex leaves `unvisted` at the very first frontier
selection). -/
theorem c6_start_entries_invariant (graph : Graph) (start endV : Id) (k : Nat)
    (hns : ∀ e ∈ graph.edges, e.fromV ≠ e.toV) (hstart : start ∈ graph.vertices) :
    getVal (runD graph start endV k).distances start = some ((0 : Int) : DistVal) ∧
    getVal (runD graph start endV k).previous start = some none := by
  have hinv : ∀ n, InvC6 graph start (runD graph start endV n) := by
    intro n
    induction n with
    | zero => exact invC6_init graph start
    | succ n ih => exact invC6_step graph start endV _ hns hstart ih
  exact ⟨(hinv k).1, (hinv k).2.1⟩

theorem c6_start_entries_witness :
    getVal (runD exG2 "A" "D" 7).distances "A" = some ((0 : Int) : DistVal) ∧
    getVal (runD exG2 "A" "D" 7).previous "A" = some none :=
  c6_start_entries_invariant exG2 "A" "D" 7 (by decide) (by decide)

/-! The exhausted-frontier loop (claims C9 and C1): once every unvisited
vertex sits at infinite distance, the fold's accumulator `''` is selected
and the machine cycles forever. -/

theorem connections_empty_id (graph : Graph) (unv : List Id)
    (hno : ∀ e ∈ graph.edges, e.fromV ≠ "" ∧ e.toV ≠ "") :
    connections graph "" unv = [] := by
  unfold connections
  refine List.filter_eq_nil_iff.mpr ?_
  intro e he
  rw [List.mem_map] at he
  obtain ⟨e0, he0, heq⟩ := he
  obtain ⟨hf, ht⟩ := hno e0 he0
  by_cases hcase : e0.toV = ""
  · exact absurd hcase ht
  · rw [if_neg hcase] at heq
    subst heq
    simp [hf]

/-- Inductive invariant of the exhausted-frontier loop: `end` is still
unvisited, the empty id is not, every unvisited vertex has infinite
distance, no edge is under examination, the machine alternates between
SelectFrontier and an empty expansion of `''`, and the graph never mentions
the empty id. -/
def QState (graph : Graph) (endV : Id) (s : DijkstraState) : Prop :=
  endV ∈ s.unvisted ∧
  "" ∉ s.unvisted ∧
  (∀ v ∈ s.unvisted, lookupD s.distances v = ⊤) ∧
  s.currentEdge = none ∧
  (s.currentVertex = none ∨ (s.currentVertex = some "" ∧ s.edgesLeft = [])) ∧
  (∀ e ∈ graph.edges, e.fromV ≠ "" ∧ e.toV ≠ "")

theorem qstate_step (graph : Graph) (endV : Id) (s : DijkstraState)
    (hq : QState graph endV s) :
    QState graph endV (next graph endV s).1 ∧ (next graph endV s).2 = false := by
  obtain ⟨hq1, hq2, hq3, hq4, hq5, hq6⟩ := hq
  rcases hq5 with hcv | ⟨hcv, hel⟩
  · have hmin := selGo_all_top s.distances s.unvisted hq3
    have hunv : (s.unvisted.filter fun u =>
        decide (u ≠ (selGo s.distances s.unvisted ("", ⊤)).1)) = s.unvisted := by
      rw [hmin]
      exact filter_ne_of_not_mem s.unvisted "" hq2
    have hconn : connections graph (selGo s.distances s.unvisted ("", ⊤)).1 s.unvisted
        = [] := by
      rw [hmin]
      exact connections_empty_id graph s.unvisted hq6
    rw [next_select graph endV s hq1 hcv, hunv, hconn, hmin]
    exact ⟨⟨hq1, hq2, hq3, hq4, Or.inr ⟨rfl, rfl⟩, hq6⟩, rfl⟩
  · rw [next_complete graph endV s "" hq1 hcv hq4 hel]
    exact ⟨⟨hq1, hq2, hq3, hq4, Or.inl rfl, hq6⟩, rfl⟩

theorem qstate_never_done (graph : Graph) (endV : Id) (s : DijkstraState)
    (hq : QState graph endV s) (k : Nat) :
    (next graph endV (runFrom graph endV s k)).2 = false := by
  have hqk : ∀ n, QState graph endV (runFrom graph endV s n) := by
    intro n
    induction n with
    | zero => exact hq
    | succ n ih => exact (qstate_step graph endV _ ih).1
  exact (qstate_step graph endV _ (hqk k)).2

theorem runFrom_add (graph : Graph) (endV : Id) (s : DijkstraState) (m n : Nat) :
    runFrom graph endV s (n + m) = runFrom graph endV (runFrom graph endV s m) n := by
  induction n with
  | zero => simp [runFrom]
  | succ n ih =>
    show runFrom graph endV s (n + 1 + m)
      = (next graph endV (runFrom graph endV (runFrom graph endV s m) n)).1
    rw [← ih, show n + 1 + m = (n + m) + 1 from by omega]
    rfl

/-- C9 counterexample: `exS9` is a SelectFrontier snapshot (current vertex
and edge none, end `B` unvisited, the only unvisited vertex `B` at infinite
distance, and `''` not a vertex of the graph), yet because the graph has an
edge leaving `''` and the snapshot records a finite distance for `''`, the
sixth `next()` call returns `true` — refuting the claim's "no finite
sequence of further next() calls ever returns true". -/
theorem c9_empty_frontier_counterexample :
    exS9.currentVertex = none ∧ exS9.currentEdge = none ∧
    "B" ∈ exS9.unvisted ∧ "" ∉ exS9.unvisted ∧ "" ∉ exG9.vertices ∧
    (∀ v ∈ exS9.unvisted, lookupD exS9.distances v = ⊤) ∧
    (next exG9 "B" (runFrom exG9 "B" exS9 5)).2 = true := by
  decide

/-- C9 (amended): in a SelectFrontier snapshot (`currentVertex` and
`currentEdge` none, `end` unvisited) in which every unvisited vertex has
infinite recorded distance, provided the empty identifier neither occurs in
`unvisted` nor as an endpoint of any edge, `next()` sets `currentVertex` to
`''` (not a vertex), sets `edgesLeft` to the empty list of normalized edges
leaving `''`, leaves `unvisted` unchanged and returns `false`; from such a
snapshot no finite sequence of further `next()` calls ever returns
`true`. -/
theorem c9_empty_frontier_amended (graph : Graph) (endV : Id) (s : DijkstraState)
    (hcv : s.currentVertex = none) (hce : s.currentEdge = none)
    (hend : endV ∈ s.unvisted) (hempty : "" ∉ s.unvisted)
    (htop : ∀ v ∈ s.unvisted, lookupD s.distances v = ⊤)
    (hno : ∀ e ∈ graph.edges, e.fromV ≠ "" ∧ e.toV ≠ "") :
    (next graph endV s).1 = { s with currentVertex := some "", edgesLeft := [] } ∧
    (next graph endV s).2 = false ∧
    (next graph endV s).1.unvisted = s.unvisted ∧
    ∀ k, (next graph endV (runFrom graph endV s k)).2 = false := by
  have hq : QState graph endV s := ⟨hend, hempty, htop, hce, Or.inl hcv, hno⟩
  have hmin := selGo_all_top s.distances s.unvisted htop
  have hunv : (s.unvisted.filter fun u =>
      decide (u ≠ (selGo s.distances s.unvisted ("", ⊤)).1)) = s.unvisted := by
    rw [hmin]
    exact filter_ne_of_not_mem s.unvisted "" hempty
  have hconn : connections graph (selGo s.distances s.unvisted ("", ⊤)).1 s.unvisted
      = [] := by
    rw [hmin]
    exact connections_empty_id graph s.unvisted hno
  refine ⟨?_, ?_, ?_, fun k => qstate_never_done graph endV s hq k⟩
  · rw [next_select graph endV s hend hcv, hunv, hconn, hmin]
  · rw [next_select graph endV s hend hcv]
  · rw [next_select graph endV s hend hcv]
    exact hunv

/-- Edgeless one-vertex graph used to witness the amended C9. -/
def exG9b : Graph := ⟨["B"], []⟩

/-- Exhausted SelectFrontier snapshot over `exG9b`. -/
def exS9b : DijkstraState :=
  ⟨["B"], [("B", (⊤ : DistVal))], [], none, none, [], false⟩

theorem c9_empty_frontier_witness :
    (next exG9b "B" exS9b).1 = { exS9b with currentVertex := some "", edgesLeft := [] } ∧
    (next exG9b "B" exS9b).2 = false ∧
    (next exG9b "B" (runFrom exG9b "B" exS9b 4)).2 = false := by
  have hmain := c9_empty_frontier_amended exG9b "B" exS9b rfl rfl (by decide) (by decide)
    (by decide) (by decide)
  exact ⟨hmain.1, hmain.2.1, hmain.2.2.2 4⟩

/-- C1: on the edgeless two-vertex graph with start `A` and end `B` (so `B`
is unreachable from `A`), `next()` returns `false` at every step of the
run — the machine never terminates, contradicting the spec's mandated
exhaustion fix which requires the run to end with `distances[B] = Infinity`
once `unvisted` can no longer make progress.  After exhausting `A`, the
frontier selection keeps picking the empty identifier and the snapshot
cycles with period two. -/
theorem c1_unreachable_end_never_done (k : Nat) :
    (next exG1 "B" (runD exG1 "A" "B" k)).2 = false := by
  match k with
  | 0 => decide
  | 1 => decide
  | (n + 2) =>
    have hq : QState exG1 "B" (runD exG1 "A" "B" 2) :=
      ⟨by decide, by decide, by decide, by decide, Or.inl (by decide), by decide⟩
    have hadd : runD exG1 "A" "B" (n + 2)
        = runFrom exG1 "B" (runD exG1 "A" "B" 2) n :=
      runFrom_add exG1 "B" (initDijkstra exG1 "A") 2 n
    rw [hadd]
    exact qstate_never_done exG1 "B" _ hq n

/-- C2: on the spec's example graph with start `A` and end `D`, the
twentieth `next()` call returns `true`, and the final snapshot records
distances A=0, B=2, C=1, D=4, E=4 and predecessors B←A, C←A, D←B, E←C with
`previous[A]` the none sentinel. -/
theorem c2_example_scenario :
    (next exG2 "D" (runD exG2 "A" "D" 19)).2 = true ∧
    (runD exG2 "A" "D" 20).isDone = true ∧
    getVal (runD exG2 "A" "D" 20).distances "A" = some ((0 : Int) : DistVal) ∧
    getVal (runD exG2 "A" "D" 20).distances "B" = some ((2 : Int) : DistVal) ∧
    getVal (runD exG2 "A" "D" 20).distances "C" = some ((1 : Int) : DistVal) ∧
    getVal (runD exG2 "A" "D" 20).distances "D" = some ((4 : Int) : DistVal) ∧
    getVal (runD exG2 "A" "D" 20).distances "E" = some ((4 : Int) : DistVal) ∧
    getVal (runD exG2 "A" "D" 20).previous "A" = some none ∧
    getVal (runD exG2 "A" "D" 20).previous "B" = some (some "A") ∧
    getVal (runD exG2 "A" "D" 20).previous "C" = some (some "A") ∧
    getVal (runD exG2 "A" "D" 20).previous "D" = some (some "B") ∧
    getVal (runD exG2 "A" "D" 20).previous "E" = some (some "C") := by
  decide

/-! Undo round-trip (claim C7). -/

theorem distFromJson_distToJson (d : DistVal) : distFromJson (distToJson d) = d := by
  induction d using WithTop.recTopCoe with
  | top => rfl
  | coe q => rfl

theorem restore_jsonClone (s : DijkstraState) : restoreSnapshot (jsonClone s) = s := by
  have hmap : ∀ (l : List (Id × DistVal)),
      ((l.map fun p => (p.1, distToJson p.2)).map fun p => (p.1, distFromJson p.2)) = l := by
    intro l
    induction l with
    | nil => rfl
    | cons p t ih =>
      obtain ⟨a, b⟩ := p
      simp [distFromJson_distToJson, ih]
  cases s
  simp [restoreSnapshot, jsonClone, hmap]

/-- Every `next()` call is either mutation-free (and commits nothing) or is
inverted exactly by one `prev()`. -/
theorem prev_nextSession (graph : Graph) (endV : Id) (ss : Session) :
    (nextSession graph endV ss).1 = ss ∨ prev (nextSession graph endV ss).1 = ss := by
  unfold nextSession
  by_cases hc : (next graph endV ss.state).1 = ss.state
  · left
    rw [if_pos hc]
  · right
    rw [if_neg hc]
    show prev ⟨(next graph endV ss.state).1, jsonClone ss.state :: ss.history⟩ = ss
    have hp : prev ⟨(next graph endV ss.state).1, jsonClone ss.state :: ss.history⟩
        = ⟨restoreSnapshot (jsonClone ss.state), ss.history⟩ := rfl
    rw [hp, restore_jsonClone]

theorem prev_iterate_sessRun (graph : Graph) (start endV : Id) (k : Nat) :
    prev^[k] (sessRun graph start endV k) = sessRun graph start endV 0 := by
  induction k with
  | zero => rfl
  | succ k ih =>
    rcases prev_nextSession graph endV (sessRun graph start endV k) with h | h
    · have hs : sessRun graph start endV (k + 1) = sessRun graph start endV k := h
      rw [hs, Function.iterate_succ_apply', ih]
      rfl
    · rw [Function.iterate_succ_apply]
      have hs : prev (sessRun graph start endV (k + 1)) = sessRun graph start endV k := h
      rw [hs]
      exact ih

/-- C7: after any `k` forward `next()` calls from an initial snapshot,
calling `prev()` `k` times restores exactly the initial session (state and
history, field for field); a further `prev()` at the initial session is a
no-op; and restoring an archived snapshot normalizes every distance entry
left as a `null` marker back to positive infinity. -/
theorem c7_undo_roundtrip (graph : Graph) (start endV : Id) (k : Nat)
    (c : ClonedState) (v : Id) :
    prev^[k] (sessRun graph start endV k) = sessRun graph start endV 0 ∧
    prev (sessRun graph start endV 0) = sessRun graph start endV 0 ∧
    ((v, (none : Option Int)) ∈ c.distances →
      (v, (⊤ : DistVal)) ∈ (restoreSnapshot c).distances) := by
  refine ⟨prev_iterate_sessRun graph start endV k, rfl, ?_⟩
  intro hv
  show (v, (⊤ : DistVal)) ∈ c.distances.map fun p => (p.1, distFromJson p.2)
  exact List.mem_map.mpr ⟨(v, none), hv, rfl⟩

/-- Archived snapshot with a `null` distance marker, witnessing C7. -/
def exC7 : ClonedState := ⟨[], [("X", none)], [], none, none, [], false⟩

theorem c7_undo_roundtrip_witness :
    prev^[3] (sessRun exG2 "A" "D" 3) = sessRun exG2 "A" "D" 0 ∧
    ("X", (⊤ : DistVal)) ∈ (restoreSnapshot exC7).distances := by
  have hmain := c7_undo_roundtrip exG2 "A" "D" 3 exC7 "X"
  exact ⟨hmain.1, hmain.2.2 (by decide)⟩

end Dijkstra
